import Mathlib
set_option maxRecDepth 20000

/-!
Verification of the TTB label-verification pipeline.

Text is modelled as `List Char`.  The fuzzy verifier
(`client/public/js/text-verifier.js`), the OCR text normalizer and the
multi-configuration OCR loop (`OCRProcessor` in the repository) are embedded
as executable Lean functions, and the spec's claims about them are proved
or refuted below.
-/

open Levenshtein (defaultCost)

/-- Text is a list of characters (JS strings, restricted to the code points
the program manipulates). -/
abbrev Str := List Char

/-- ASCII letter class, the meaning of the regex class A-Z under the i flag. -/
def isAsciiLetter (c : Char) : Bool :=
  (decide ('A' ≤ c) && decide (c ≤ 'Z')) || (decide ('a' ≤ c) && decide (c ≤ 'z'))

/-- JS String.prototype.toLowerCase, character by character (ASCII range). -/
def jsToLower (s : Str) : Str := s.map Char.toLower

/-! ### levenshteinDistance (text-verifier.js, lines 13-37)

The source builds the dynamic-programming matrix with
`matrix[i][0] = i`, `matrix[0][j] = j` and
`matrix[i][j] = min(matrix[i-1][j-1] + cost, matrix[i][j-1] + 1, matrix[i-1][j] + 1)`
with `cost = (b[i-1] === a[j-1] ? 0 : 1)`, returning `matrix[b.length][a.length]`,
i.e. the unit-cost edit distance between `b` and `a`.  Mathlib's
`levenshtein defaultCost` computes exactly that recurrence row by row
(`levenshtein_cons_cons`); the two guard clauses of the source are kept. -/
def levenshteinDistance (a b : Str) : ℕ :=
  if a.length = 0 then b.length
  else if b.length = 0 then a.length
  else levenshtein defaultCost b a

/-! ### findBestMatch (text-verifier.js, lines 45-81) -/

/-- Result of `findBestMatch`: `distance` (`Infinity` modelled as `⊤`),
`word` (`null` modelled as `none`) and `confidence`. -/
structure MatchResult where
  distance : ℕ∞
  word : Option Str
  confidence : ℚ
  deriving DecidableEq

/-- JS `text.split(/\s+/)`: cut at each maximal whitespace run; a leading or
trailing run contributes an empty-string element, and the empty string splits
to a single empty string. -/
def splitWsGo : Str → Bool → Str → List Str
  | [], _, acc => [acc.reverse]
  | c :: cs, prevWs, acc =>
    if c.isWhitespace then
      if prevWs then splitWsGo cs true acc
      else acc.reverse :: splitWsGo cs true []
    else splitWsGo cs false (c :: acc)

/-- JS `text.split(/\s+/)` as a single left-to-right pass (`prevWs` records
whether the previous character belonged to the current whitespace run). -/
def jsSplitWs (l : Str) : List Str := splitWsGo l false []

/-- `words.slice(i, i+k).join(' ')`. -/
def joinSpaces : List Str → Str
  | [] => []
  | [w] => w
  | w :: ws => w ++ ' ' :: joinSpaces ws

/-- The phrase of `k` words starting at index `i`. -/
def phrase (words : List Str) (i k : ℕ) : Str :=
  joinSpaces ((words.drop i).take k)

/-- Candidate words and phrases in the iteration order of the source's nested
loops: for each `i`, the single word `words[i]`, then the 2-word and 3-word
phrases starting at `i` when they fit within bounds (`i + j < words.length`). -/
def candidates (words : List Str) : List Str :=
  (List.range words.length).flatMap fun i =>
    [phrase words i 1]
      ++ (if i + 1 < words.length then [phrase words i 2] else [])
      ++ (if i + 2 < words.length then [phrase words i 3] else [])

/-- The source's best-match loop: starting from `bestMatch = {distance: Infinity,
word: null}` (the `none` accumulator), each candidate replaces the accumulator
exactly when its distance is strictly smaller. -/
def bestLoop (searchValue : Str) : List Str → Option (ℕ × Str) → Option (ℕ × Str)
  | [], acc => acc
  | w :: ws, acc =>
    let d := levenshteinDistance searchValue w
    let acc' := match acc with
      | none => some (d, w)
      | some (bd, bw) => if d < bd then some (d, w) else some (bd, bw)
    bestLoop searchValue ws acc'

/-- `TextVerifier.findBestMatch(searchValue, text)`.  The exact-substring
short-circuit returns distance 0 and confidence 1; otherwise the best candidate
is converted to a confidence by
`maxLength = max(searchValue.length, bestMatch.word?.length || 0)` and
`confidence = maxLength > 0 ? Math.max(0, 1 - distance / maxLength) : 0`.
The rational `1 - distance / maxLength` is written `mkRat (maxLength - distance)
maxLength`, an equal value (`conf_mkRat_eq` below), so that the definition
evaluates by kernel reduction. -/
def findBestMatch (searchValue text : Str) : MatchResult :=
  if searchValue <:+: text then
    { distance := 0, word := some searchValue, confidence := 1 }
  else
    match bestLoop searchValue (candidates (jsSplitWs text)) none with
    | none => { distance := ⊤, word := none, confidence := 0 }
    | some (d, w) =>
      let maxLength := max searchValue.length w.length
      { distance := (d : ℕ∞), word := some w,
        confidence :=
          if 0 < maxLength then max 0 (mkRat ((maxLength : ℤ) - (d : ℤ)) maxLength) else 0 }

/-- `maxLength` as the source computes it from a `MatchResult`:
`Math.max(searchValue.length, bestMatch.word?.length || 0)`. -/
def wordLen (m : MatchResult) : ℕ :=
  match m.word with
  | none => 0
  | some w => w.length

/-! ### verifyText (text-verifier.js, lines 86-119) -/

/-- One element of the array `verifyText` builds. -/
structure VerificationResult where
  field : Str
  input : Str
  found : Bool
  confidence : ℚ
  bestMatch : Option Str
  deriving DecidableEq, Repr

def noTextError : Str := "No text extracted from image".data

/-- `TextVerifier.verifyText(extractedText, fields)`: throw when the extracted
text is empty, lower-case it, keep the field entries with truthy (non-empty)
values, and produce one result per kept entry with
`found = confidence > 0.7`.  The progress callback and the `setTimeout` yield
affect no data and are not modelled. -/
def verifyText (extractedText : Str) (fields : List (Str × Str)) :
    Except Str (List VerificationResult) :=
  if extractedText = [] then .error noTextError
  else
    let text := jsToLower extractedText
    let fieldEntries := fields.filter fun p => p.2 ≠ []
    .ok (fieldEntries.map fun p =>
      let searchValue := jsToLower p.2
      let m := findBestMatch searchValue text
      { field := p.1, input := p.2, found := decide (m.confidence > mkRat 7 10),
        confidence := m.confidence, bestMatch := m.word })

/-! ### normalizeText (OCRProcessor.normalizeText)

Each `String.prototype.replace(regex, replacement)` call with a `g` flag is
embedded as a left-to-right scanner producing non-overlapping, leftmost
matches, resuming after each replaced match, exactly as the JS regex engine
does.  The `charFixes` dictionary in the source is declared but never used,
so it is not modelled. -/

/-- `normalized.replace(/([A-Z])d([A-Z])/gi, replacement)` for a digit `d`: a
digit flanked by ASCII letters becomes the letter `r`; scanning resumes after
the three matched characters. -/
def fixDigitBetweenLetters (d r : Char) : Str → Str
  | c1 :: c2 :: c3 :: rest =>
    if isAsciiLetter c1 && decide (c2 = d) && isAsciiLetter c3 then
      c1 :: r :: c3 :: fixDigitBetweenLetters d r rest
    else
      c1 :: fixDigitBetweenLetters d r (c2 :: c3 :: rest)
  | l => l

/-- One percent-repair pass, `replace(/(\d+)\s*X\/X/gi, '$1%')`, where the
class `X` is the letter o (rule `o/o`, case-insensitive) or the digit 0 (rule
`0/0`).  A maximal digit run, optional whitespace and `X/X` are rewritten to
the digits followed by `%`; on a failed match the scan advances one character,
which examines each shorter digit suffix exactly as the regex engine does. -/
def pctFixGo (isX : Char → Bool) : ℕ → Str → Str
  | _, [] => []
  | 0, l => l
  | fuel + 1, c :: cs =>
    if c.isDigit then
      let ds := (c :: cs).takeWhile (·.isDigit)
      match ((c :: cs).dropWhile (·.isDigit)).dropWhile (·.isWhitespace) with
      | x :: '/' :: y :: tail =>
        if isX x && isX y then ds ++ '%' :: pctFixGo isX fuel tail
        else c :: pctFixGo isX fuel cs
      | _ => c :: pctFixGo isX fuel cs
    else c :: pctFixGo isX fuel cs

/-- The percent repair on a whole string; the fuel `l.length` dominates the
number of scan steps, each of which consumes at least one character, so the
`0` fuel case with a non-empty list is never reached. -/
def pctFix (isX : Char → Bool) (l : Str) : Str := pctFixGo isX l.length l

/-- A regex character class. -/
abbrev CharClass := Char → Bool

/-- Case-insensitive literal letter (the class written as a plain letter under
the i flag); `c` is given in lowercase. -/
def ciC (c : Char) : CharClass := fun x => x.toLower == c

/-- A bracket class such as `[o0]` or `[i1]` under the i flag: membership of
the lowercased character in the listed set. -/
def oneOf (s : List Char) : CharClass := fun x => s.contains x.toLower

/-- Match a list of character classes against a prefix of the text, returning
the remainder on success (the remainder is no longer than the text, which
bounds the recursion of `replacePat`). -/
def matchesPat : (ps : List CharClass) → (l : Str) → Option {r : Str // r.length ≤ l.length}
  | [], l => some ⟨l, le_refl _⟩
  | _ :: _, [] => none
  | p :: ps, c :: cs =>
    if p c then
      match matchesPat ps cs with
      | some r => some ⟨r.val, le_trans r.property (Nat.le_succ _)⟩
      | none => none
    else none

/-- `replace(/pat/gi, rep)` for a fixed-length pattern `p0 :: prest` of
character classes: leftmost non-overlapping matches are replaced by `rep`,
and the scan resumes after each match. -/
def replacePatGo (p0 : CharClass) (prest : List CharClass) (rep : Str) : ℕ → Str → Str
  | _, [] => []
  | 0, l => l
  | fuel + 1, c :: cs =>
    if p0 c then
      match matchesPat prest cs with
      | some rest => rep ++ replacePatGo p0 prest rep fuel rest.val
      | none => c :: replacePatGo p0 prest rep fuel cs
    else c :: replacePatGo p0 prest rep fuel cs

/-- `replace(/pat/gi, rep)` for a fixed-length pattern `p0 :: prest` of
character classes: leftmost non-overlapping matches are replaced by `rep`,
and the scan resumes after each match.  The fuel `l.length` dominates the
number of scan steps, each of which consumes at least one character. -/
def replacePat (p0 : CharClass) (prest : List CharClass) (rep : Str) (l : Str) : Str :=
  replacePatGo p0 prest rep l.length l

/-- `replace(/pr[o0]{2}f/gi, 'proof')`. -/
def fixProofA : Str → Str :=
  replacePat (ciC 'p') [ciC 'r', oneOf ['o', '0'], oneOf ['o', '0'], ciC 'f'] (['p','r','o','o','f'])

/-- `replace(/pr[o0]of/gi, 'proof')`. -/
def fixProofB : Str → Str :=
  replacePat (ciC 'p') [ciC 'r', oneOf ['o', '0'], ciC 'o', ciC 'f'] (['p','r','o','o','f'])

/-- `replace(/wh[i1]sky/gi, 'whisky')`. -/
def fixWhisky : Str → Str :=
  replacePat (ciC 'w') [ciC 'h', oneOf ['i', '1'], ciC 's', ciC 'k', ciC 'y']
    (['w','h','i','s','k','y'])

/-- `replace(/wh[i1]skey/gi, 'whiskey')`. -/
def fixWhiskey : Str → Str :=
  replacePat (ciC 'w') [ciC 'h', oneOf ['i', '1'], ciC 's', ciC 'k', ciC 'e', ciC 'y']
    (['w','h','i','s','k','e','y'])

/-- `replace(/v[o0]dka/gi, 'vodka')`. -/
def fixVodka : Str → Str :=
  replacePat (ciC 'v') [oneOf ['o', '0'], ciC 'd', ciC 'k', ciC 'a'] (['v','o','d','k','a'])

/-- `replace(/t[e3]qu[i1]la/gi, 'tequila')`. -/
def fixTequila : Str → Str :=
  replacePat (ciC 't') [oneOf ['e', '3'], ciC 'q', ciC 'u', oneOf ['i', '1'], ciC 'l', ciC 'a']
    (['t','e','q','u','i','l','a'])

/-- `replace(/b[o0]urb[o0]n/gi, 'bourbon')`. -/
def fixBourbon : Str → Str :=
  replacePat (ciC 'b') [oneOf ['o', '0'], ciC 'u', ciC 'r', ciC 'b', oneOf ['o', '0'], ciC 'n']
    (['b','o','u','r','b','o','n'])

/-- `replace(/c[o0]gnac/gi, 'cognac')`. -/
def fixCognac : Str → Str :=
  replacePat (ciC 'c') [oneOf ['o', '0'], ciC 'g', ciC 'n', ciC 'a', ciC 'c']
    (['c','o','g','n','a','c'])

/-- `replace(/[b8]randy/gi, 'brandy')`. -/
def fixBrandy : Str → Str :=
  replacePat (oneOf ['b', '8']) [ciC 'r', ciC 'a', ciC 'n', ciC 'd', ciC 'y']
    (['b','r','a','n','d','y'])

/-- `replace(/m[li1]/gi, 'ml')` (volume units). -/
def fixMl : Str → Str :=
  replacePat (ciC 'm') [oneOf ['l', 'i', '1']] (['m','l'])

/-- `replace(/[o0]z/gi, 'oz')` (volume units). -/
def fixOz : Str → Str :=
  replacePat (oneOf ['o', '0']) [ciC 'z'] (['o','z'])

/-- `replace(/\s+/g, ' ')`: every maximal whitespace run becomes one space. -/
def wsReplaceGo : Str → Bool → Str
  | [], _ => []
  | c :: cs, prevWs =>
    if c.isWhitespace then
      if prevWs then wsReplaceGo cs true
      else ' ' :: wsReplaceGo cs true
    else c :: wsReplaceGo cs false

/-- `replace(/\s+/g, ' ')`: every maximal whitespace run becomes one space
(single pass; `prevWs` records whether the run has already been replaced). -/
def wsReplace (l : Str) : Str := wsReplaceGo l false

/-- JS `String.prototype.trim()`: strip leading and trailing whitespace. -/
def jsTrim (l : Str) : Str :=
  ((l.dropWhile (·.isWhitespace)).reverse.dropWhile (·.isWhitespace)).reverse

/-- The whole whitespace-collapse step of the normalizer,
`replace(/\s+/g, ' ').trim()`. -/
def wsStep (l : Str) : Str := jsTrim (wsReplace l)

/-- Line terminators, which the `.` in `/(.)\1{3,}/g` does not match. -/
def isLineTerm (c : Char) : Bool :=
  c == '\n' || c == '\r' || c == '\u2028' || c == '\u2029'

/-- The length of the output block for a maximal run of `n` copies of `c`:
a run the regex matches (more than 3 repetitions of a non-line-terminator)
is emitted as exactly 2 copies, any other run unchanged. -/
def emitLen (c : Char) (n : ℕ) : ℕ :=
  if !isLineTerm c && decide (4 ≤ n) then 2 else n

def emitRun (c : Char) (n : ℕ) : Str := List.replicate (emitLen c n) c

def collapseGo : Str → Char → ℕ → Str
  | [], c, n => emitRun c n
  | d :: ds, c, n =>
    if d = c then collapseGo ds c (n + 1)
    else emitRun c n ++ collapseGo ds d 1

/-- `replace(/(.)\1{3,}/g, '$1$1')`: a maximal run of a character that `.`
matches (any non-line-terminator) of length more than 3 is collapsed to
exactly 2 occurrences (the greedy quantifier consumes the whole run); other
runs are emitted unchanged. -/
def collapseRepeats : Str → Str
  | [] => []
  | c :: cs => collapseGo cs c 1

/-- `OCRProcessor.normalizeText(text)`: the replacement rules of the source in
their exact order.  The empty string is returned unchanged (the `!text`
guard). -/
def normalizeText (text : Str) : Str :=
  if text = [] then []
  else
    collapseRepeats (wsStep
      (fixOz (fixMl
        (fixBrandy (fixCognac (fixBourbon (fixTequila (fixVodka
          (fixWhiskey (fixWhisky
            (fixProofB (fixProofA
              (pctFix (fun x => x == '0')
                (pctFix (fun x => x.toLower == 'o')
                  (fixDigitBetweenLetters '5' 'S'
                    (fixDigitBetweenLetters '1' 'I'
                      (fixDigitBetweenLetters '0' 'O' text)))))))))))))))))

/-! ### processImage (OCRProcessor.processImage)

The four OCR configurations (Sparse Text, Auto Detection, Single Block,
Raw Line) are opaque to the loop's control flow and are modelled by their
indices; `Tesseract.recognize` is an external dependency, modelled as an
oracle from the configuration index to an outcome.  `Math.log` is modelled
as `Real.log`; the score only orders candidate results and never affects
the early exit, the attempt count or the error path. -/

/-- Outcome of one `Tesseract.recognize` call: the raw text and confidence
of `result.data`, or a thrown recognition error. -/
inductive RecOutcome where
  | ok (text : Str) (confidence : ℚ)
  | err
  deriving DecidableEq

/-- The best result retained by the loop: `{ text: normalizedText, confidence }`. -/
structure OCRBest where
  text : Str
  confidence : ℚ
  deriving DecidableEq

/-- The weighted score `confidence * Math.log(text.length + 1)`. -/
noncomputable def ocrScore (confidence : ℚ) (len : ℕ) : ℝ :=
  (confidence : ℝ) * Real.log ((len : ℝ) + 1)

/-- The body of `processImage`'s `for` loop over the remaining configuration
indices, carrying the best result so far and the number of
`Tesseract.recognize` invocations made.  A thrown error is caught and the
loop continues; after a successful recognition the best result is updated
when the new score is strictly greater (or there was none), and the loop
breaks when `confidence > 80 && normalizedText.length > 50`. -/
noncomputable def processImageGo (recognize : ℕ → RecOutcome) :
    List ℕ → Option OCRBest → ℕ → Option OCRBest × ℕ
  | [], best, count => (best, count)
  | i :: rest, best, count =>
    match recognize i with
    | .err => processImageGo recognize rest best (count + 1)
    | .ok text conf =>
      let normalizedText := normalizeText text
      let newBest : Option OCRBest :=
        match best with
        | none => some ⟨normalizedText, conf⟩
        | some b =>
          if ocrScore conf normalizedText.length > ocrScore b.confidence b.text.length then
            some ⟨normalizedText, conf⟩
          else some b
      if conf > 80 ∧ normalizedText.length > 50 then (newBest, count + 1)
      else processImageGo recognize rest newBest (count + 1)

def allFailedError : Str := "All OCR attempts failed".data

/-- `OCRProcessor.processImage`: run the loop over the four configurations
starting from `bestResult = null`; if no configuration succeeded, throw
`'All OCR attempts failed'`.  The second component is the number of
recognition invocations made. -/
noncomputable def processImage (recognize : ℕ → RecOutcome) :
    Except Str OCRBest × ℕ :=
  match processImageGo recognize (List.range 4) none 0 with
  | (none, n) => (.error allFailedError, n)
  | (some b, n) => (.ok b, n)

/-! ### Concrete inputs used by witnesses and counterexamples -/

def s750ML : Str := "750 ML".data
def s750ml : Str := "750 ml".data
def sampleOcrText : Str := "xx 750 ml yy".data
def sNetContents : Str := "netContents".data
def whiskyRawInput : Str := "WHI5KY 4O o/o".data
def whiskyNormalized : Str := "whisky 4O o/o".data
def sWHISKY : Str := "WHISKY".data
def s40pct : Str := "40%".data
def sWhiskyWord : Str := "whisky".data
def premiumInput : Str := "PREMIUM".data
def premiumOutput : Str := "PREmlUM".data
def bozemanInput : Str := "BOZEMAN".data
def bozemanOutput : Str := "BozEMAN".data

/-- A raw OCR text whose normalization is longer than 50 characters (used to
exercise the early-exit rule). -/
def longRaw : Str := "abcd efgh abcd efgh abcd efgh abcd efgh abcd efgh abcd efgh".data

/-- A recognition oracle whose first configuration succeeds with high
confidence and long text, and whose other configurations fail. -/
def recOnce : ℕ → RecOutcome :=
  fun j => if j = 0 then RecOutcome.ok longRaw 90 else RecOutcome.err

/-- A recognition oracle for which every configuration throws. -/
def recAllErr : ℕ → RecOutcome := fun _ => RecOutcome.err

/-! ### Specification predicates for the idempotence claims -/

/-- Every maximal run of equal characters that the repeat-collapse regex can
match (first character not a line terminator) has length at most 3:
`isLineTerm c` or head-run of `c` at most 2 more after the first, checked run
by run. -/
def runsOk : Str → Bool
  | [] => true
  | c :: cs =>
    (isLineTerm c || decide ((cs.takeWhile (fun x => decide (x = c))).length ≤ 2)) &&
      runsOk (cs.dropWhile (fun x => decide (x = c)))
termination_by l => l.length
decreasing_by
· simpa using Nat.lt_succ_of_le (List.Sublist.length_le (List.dropWhile_sublist _))

/-- Whitespace characters are all plain spaces. -/
def wsCharsSpace (l : Str) : Prop := ∀ c ∈ l, c.isWhitespace = true → c = ' '

/-- No two adjacent whitespace characters. -/
def noAdjWs (l : Str) : Prop :=
  List.Chain' (fun a b => ¬(a.isWhitespace = true ∧ b.isWhitespace = true)) l

/-- The first character, when present, is not whitespace. -/
def headNotWs (l : Str) : Prop := ∀ c ∈ l.head?, c.isWhitespace = false

/-- The shape of the output of the whitespace-collapse step: all whitespace is
single interior spaces. -/
def wsClean (l : Str) : Prop :=
  wsCharsSpace l ∧ noAdjWs l ∧ headNotWs l ∧ headNotWs l.reverse

/-! ## Theorems -/

theorem lev_nil_right (ys : Str) : levenshtein defaultCost ys [] = ys.length := by
  induction ys with
  | nil => simp
  | cons y ys ih => simp [ih, Nat.add_comm]

theorem lev_nil_left (ys : Str) : levenshtein defaultCost [] ys = ys.length := by
  induction ys with
  | nil => simp
  | cons y ys ih => simp [ih, Nat.add_comm]

theorem lev_symm (a b : Str) :
    levenshtein defaultCost a b = levenshtein defaultCost b a := by
  induction a generalizing b with
  | nil => rw [lev_nil_left, lev_nil_right]
  | cons x xs ihx =>
    induction b with
    | nil => rw [lev_nil_left, lev_nil_right]
    | cons y ys ihy =>
      rw [levenshtein_cons_cons, levenshtein_cons_cons, ← ihy, ← ihx (y :: ys), ← ihx ys]
      simp only [Levenshtein.defaultCost]
      have hsub : (if x = y then (0 : ℕ) else 1) = if y = x then 0 else 1 := by
        simp [eq_comm]
      rw [hsub, inf_left_comm]

/-- C9: the Levenshtein distance implementation is symmetric:
`levenshteinDistance(a, b) = levenshteinDistance(b, a)` for all strings. -/
theorem levenshteinDistance_symm (a b : Str) :
    levenshteinDistance a b = levenshteinDistance b a := by
  unfold levenshteinDistance
  rcases a with _ | ⟨x, xs⟩
  · rcases b with _ | ⟨y, ys⟩ <;> simp
  · rcases b with _ | ⟨y, ys⟩
    · simp
    · have h1 : (x :: xs).length ≠ 0 := by simp
      have h2 : (y :: ys).length ≠ 0 := by simp
      rw [if_neg h1, if_neg h2, if_neg h2, if_neg h1]
      exact lev_symm _ _

theorem findBestMatch_of_contains (sv t : Str) (h : sv <:+: t) :
    findBestMatch sv t = { distance := 0, word := some sv, confidence := 1 } := by
  unfold findBestMatch
  rw [if_pos h]

/-- C3: whenever the text contains the expected value verbatim, `findBestMatch`
returns distance 0 and confidence 1; consequently `verifyText`, which
lower-cases both sides, marks an expected value of 750 ML as matched with
confidence 1 against any non-empty text containing 750 ml. -/
theorem findBestMatch_exact_substring :
    (∀ sv t : Str, sv <:+: t →
      (findBestMatch sv t).distance = 0 ∧ (findBestMatch sv t).confidence = 1)
    ∧ ∀ t name : Str, t ≠ [] → s750ml <:+: jsToLower t →
        ∃ r : VerificationResult,
          verifyText t [(name, s750ML)] = .ok [r] ∧
          r.found = true ∧ r.confidence = 1 := by
  constructor
  · intro sv t h
    rw [findBestMatch_of_contains sv t h]
    exact ⟨rfl, rfl⟩
  · intro t name ht h
    have hlower : jsToLower s750ML = s750ml := by decide
    refine ⟨⟨name, s750ML, true, 1, some s750ml⟩, ?_, rfl, rfl⟩
    unfold verifyText
    rw [if_neg ht]
    have hne : decide (s750ML ≠ ([] : Str)) = true := by decide
    simp only [List.filter_cons, List.filter_nil, hne, if_pos, List.map_cons, List.map_nil]
    rw [hlower]
    rw [findBestMatch_of_contains _ _ h]
    simp
    norm_num

theorem conf_mkRat_eq (d m : ℕ) (hm : 0 < m) :
    max (0 : ℚ) (mkRat ((m : ℤ) - (d : ℤ)) m) = max 0 (1 - (d : ℚ) / (m : ℚ)) := by
  rw [Rat.mkRat_eq_div]
  congr 1
  have hm0 : ((m : ℚ)) ≠ 0 := by positivity
  push_cast
  rw [sub_div, div_self hm0]

theorem findBestMatch_confidence_range (sv t : Str) :
    0 ≤ (findBestMatch sv t).confidence ∧ (findBestMatch sv t).confidence ≤ 1 := by
  unfold findBestMatch
  by_cases hin : sv <:+: t
  · rw [if_pos hin]
    exact ⟨by norm_num, le_refl 1⟩
  · rw [if_neg hin]
    rcases hbl : bestLoop sv (candidates (jsSplitWs t)) none with _ | ⟨bd, bw⟩
    · exact ⟨le_refl 0, by norm_num⟩
    · dsimp only
      by_cases hml : 0 < max sv.length bw.length
      · rw [if_pos hml]
        constructor
        · exact le_max_left 0 _
        · apply max_le (by norm_num)
          rw [Rat.mkRat_eq_div]
          rw [div_le_one (by positivity)]
          push_cast
          have hd0 : (0 : ℚ) ≤ (bd : ℚ) := by positivity
          linarith
      · rw [if_neg hml]
        exact ⟨le_refl 0, by norm_num⟩

/-- C1: every result produced by `verifyText` has confidence in the closed
interval 0 to 1, and its `found` flag is true exactly when the confidence is
strictly greater than 0.7. -/
theorem verifyText_confidence_invariant (e : Str) (fields : List (Str × Str))
    (rs : List VerificationResult) (r : VerificationResult)
    (hok : verifyText e fields = .ok rs) (hr : r ∈ rs) :
    0 ≤ r.confidence ∧ r.confidence ≤ 1 ∧ (r.found = true ↔ r.confidence > 7/10) := by
  unfold verifyText at hok
  split at hok
  · exact absurd hok (by simp)
  · rw [Except.ok.injEq] at hok
    subst hok
    rw [List.mem_map] at hr
    obtain ⟨p, hp, hpr⟩ := hr
    subst hpr
    refine ⟨(findBestMatch_confidence_range _ _).1, (findBestMatch_confidence_range _ _).2, ?_⟩
    have hth : mkRat 7 10 = (7 : ℚ) / 10 := by
      rw [Rat.mkRat_eq_div]
      norm_num
    simp [hth]

/-- Witness for C1 at a concrete input. -/
theorem verifyText_confidence_invariant_witness :
    0 ≤ (⟨['a'], ['x'], true, 1, some ['x']⟩ : VerificationResult).confidence ∧
    (⟨['a'], ['x'], true, 1, some ['x']⟩ : VerificationResult).confidence ≤ 1 ∧
    ((⟨['a'], ['x'], true, 1, some ['x']⟩ : VerificationResult).found = true ↔
      (⟨['a'], ['x'], true, 1, some ['x']⟩ : VerificationResult).confidence > 7/10) :=
  verifyText_confidence_invariant ['x'] [(['a'], ['x'])]
    [⟨['a'], ['x'], true, 1, some ['x']⟩] ⟨['a'], ['x'], true, 1, some ['x']⟩
    (by rfl) (by simp)

/-- C2: for non-empty extracted text, `verifyText` succeeds and produces
exactly one result per field entry with a non-empty expected value, none for
empty-valued entries, in the caller-supplied order. -/
theorem verifyText_one_result_per_nonempty_field (e : Str) (fields : List (Str × Str))
    (he : e ≠ []) :
    ∃ rs, verifyText e fields = .ok rs ∧
      rs.map (fun r => (r.field, r.input)) = fields.filter (fun p => p.2 ≠ []) := by
  unfold verifyText
  rw [if_neg he]
  refine ⟨_, rfl, ?_⟩
  rw [List.map_map]
  conv_rhs => rw [← List.map_id (fields.filter fun p => p.2 ≠ [])]
  apply List.map_congr_left
  intro p hp
  simp

/-- Witness for C2 at a concrete input. -/
theorem verifyText_one_result_per_nonempty_field_witness :
    ∃ rs, verifyText ['x'] [(['a'], ['x']), (['b'], [])] = .ok rs ∧
      rs.map (fun r => (r.field, r.input)) =
        [(['a'], ['x']), (['b'], [])].filter (fun p => p.2 ≠ []) :=
  verifyText_one_result_per_nonempty_field ['x'] [(['a'], ['x']), (['b'], [])] (by decide)

/-- Witness for C3 at concrete inputs: the text xx 750 ml yy contains 750 ml,
and verification of the expected value 750 ML against it succeeds with
confidence 1. -/
theorem findBestMatch_exact_substring_witness :
    ((findBestMatch s750ml sampleOcrText).distance = 0 ∧
      (findBestMatch s750ml sampleOcrText).confidence = 1) ∧
    ∃ r : VerificationResult,
      verifyText sampleOcrText [(sNetContents, s750ML)] = .ok [r] ∧
      r.found = true ∧ r.confidence = 1 :=
  ⟨findBestMatch_exact_substring.1 s750ml sampleOcrText (by decide),
   findBestMatch_exact_substring.2 sampleOcrText sNetContents (by decide) (by decide)⟩

theorem splitWsGo_ne_nil (l : Str) (b : Bool) (acc : Str) : splitWsGo l b acc ≠ [] := by
  induction l generalizing b acc with
  | nil => simp [splitWsGo]
  | cons c cs ih =>
    unfold splitWsGo
    by_cases hw : c.isWhitespace
    · rw [if_pos hw]
      by_cases hb : b
      · rw [if_pos hb]
        exact ih true acc
      · rw [if_neg hb]
        simp
    · rw [if_neg hw]
      exact ih false (c :: acc)

theorem jsSplitWs_ne_nil (l : Str) : jsSplitWs l ≠ [] := splitWsGo_ne_nil l false []

theorem candidates_ne_nil (words : List Str) (hw : words ≠ []) : candidates words ≠ [] := by
  rcases words with _ | ⟨w, ws⟩
  · exact absurd rfl hw
  · unfold candidates
    simp only [List.length_cons]
    rw [List.range_succ_eq_map]
    simp

theorem bestLoop_some (sv : Str) (l : List Str) (p : ℕ × Str) :
    ∃ q, bestLoop sv l (some p) = some q := by
  induction l generalizing p with
  | nil => exact ⟨p, rfl⟩
  | cons w ws ih =>
    unfold bestLoop
    dsimp only
    split
    · exact ih _
    · exact ih _

theorem bestLoop_cons_some (sv : Str) (l : List Str) (w : Str) :
    ∃ q, bestLoop sv (w :: l) none = some q := by
  show ∃ q, bestLoop sv l (some (levenshteinDistance sv w, w)) = some q
  exact bestLoop_some sv l _

theorem bestLoop_ne_nil_some (sv : Str) (l : List Str) (hl : l ≠ []) :
    ∃ q, bestLoop sv l none = some q := by
  rcases l with _ | ⟨w, ws⟩
  · exact absurd rfl hl
  · exact bestLoop_cons_some sv ws w

/-- On any input with a non-empty expected value, `findBestMatch` returns a
concrete best word and the confidence `max 0 ((maxLength - distance) /
maxLength)` with `maxLength = max |expected| |word|` positive. -/
theorem findBestMatch_characterization (sv t : Str) (hsv : sv ≠ []) :
    ∃ d : ℕ, ∃ w : Str,
      (findBestMatch sv t).distance = (d : ℕ∞) ∧
      (findBestMatch sv t).word = some w ∧
      (findBestMatch sv t).confidence =
        max 0 (mkRat (((max sv.length w.length : ℕ) : ℤ) - (d : ℤ)) (max sv.length w.length)) ∧
      0 < max sv.length w.length := by
  have hpos : 0 < sv.length := List.length_pos.mpr hsv
  unfold findBestMatch
  by_cases hin : sv <:+: t
  · rw [if_pos hin]
    refine ⟨0, sv, rfl, rfl, ?_, by omega⟩
    have h1 : max (0 : ℚ) (mkRat (((max sv.length sv.length : ℕ) : ℤ) - ((0 : ℕ) : ℤ))
        (max sv.length sv.length)) = 1 := by
      rw [conf_mkRat_eq 0 (max sv.length sv.length) (by omega)]
      have hm0 : ((max sv.length sv.length : ℕ) : ℚ) ≠ 0 := by positivity
      simp
    rw [h1]
  · rw [if_neg hin]
    have hw : jsSplitWs t ≠ [] := jsSplitWs_ne_nil t
    obtain ⟨⟨bd, bw⟩, hq⟩ :=
      bestLoop_ne_nil_some sv (candidates (jsSplitWs t)) (candidates_ne_nil _ hw)
    rw [hq]
    dsimp only
    refine ⟨bd, bw, rfl, rfl, ?_, by omega⟩
    rw [if_pos (show 0 < max sv.length bw.length by omega)]

/-- C5 (amended): `findBestMatch` is monotone in the best distance among
inputs whose confidence-normalization denominator
`max(len(expected), len(matchedText))` coincides: with equal denominators and
non-empty expected values, a lower-or-equal distance never yields a lower
confidence.  (Across different denominators the original claim fails, see the
counterexample.) -/
theorem findBestMatch_monotone_same_denominator (e1 t1 e2 t2 : Str)
    (h1 : e1 ≠ []) (h2 : e2 ≠ [])
    (hd : (findBestMatch e1 t1).distance ≤ (findBestMatch e2 t2).distance)
    (hden : max e1.length (wordLen (findBestMatch e1 t1)) =
      max e2.length (wordLen (findBestMatch e2 t2))) :
    (findBestMatch e2 t2).confidence ≤ (findBestMatch e1 t1).confidence := by
  obtain ⟨d1, w1, hd1, hw1, hc1, hm1⟩ := findBestMatch_characterization e1 t1 h1
  obtain ⟨d2, w2, hd2, hw2, hc2, hm2⟩ := findBestMatch_characterization e2 t2 h2
  have hwl1 : wordLen (findBestMatch e1 t1) = w1.length := by
    unfold wordLen
    rw [hw1]
  have hwl2 : wordLen (findBestMatch e2 t2) = w2.length := by
    unfold wordLen
    rw [hw2]
  rw [hwl1, hwl2] at hden
  have hdn : d1 ≤ d2 := by
    rw [hd1, hd2] at hd
    exact_mod_cast hd
  rw [hc1, hc2, hden]
  set m := max e2.length w2.length with hm
  apply max_le_max (le_refl 0)
  rw [Rat.mkRat_eq_div, Rat.mkRat_eq_div]
  apply div_le_div_of_nonneg_right ?_ (by positivity)
  have hz : ((m : ℤ) - (d2 : ℤ)) ≤ ((m : ℤ) - (d1 : ℤ)) := by omega
  exact_mod_cast hz

/-- Counterexample to C5 as stated: the input pair expected a, text b has
best distance 1 and confidence 0, while expected aaaaa, text aaabb has
best distance 2 but confidence 3/5, so the lower distance comes with the
strictly lower confidence. -/
theorem findBestMatch_monotonicity_counterexample :
    (findBestMatch ['a'] ['b']).distance <
      (findBestMatch ['a','a','a','a','a'] ['a','a','a','b','b']).distance ∧
    (findBestMatch ['a'] ['b']).confidence <
      (findBestMatch ['a','a','a','a','a'] ['a','a','a','b','b']).confidence := by
  constructor
  · show ((1 : ℕ) : ℕ∞) < ((2 : ℕ) : ℕ∞)
    · exact_mod_cast Nat.lt_succ_self 1
  · decide

/-- Witness for the amended C5 at concrete inputs with equal denominators. -/
theorem findBestMatch_monotone_same_denominator_witness :
    (findBestMatch ['a'] ['b']).confidence ≤ (findBestMatch ['a'] ['a']).confidence :=
  findBestMatch_monotone_same_denominator ['a'] ['a'] ['a'] ['b']
    (by decide) (by decide) (by decide) (by decide)

/-- Counterexample to C4 as stated: normalizing the raw OCR text
WHI5KY 4O o/o yields whisky 4O o/o, which contains neither WHISKY (the
spirit-name canonicalization rewrites the whole word to lowercase whisky)
nor 40% (the percent repair requires a digit before o/o, and the O here is
the letter O, which no rule turns into a digit). -/
theorem normalizeText_whisky_counterexample :
    normalizeText whiskyRawInput = whiskyNormalized ∧
    ¬ sWHISKY <:+: normalizeText whiskyRawInput ∧
    ¬ s40pct <:+: normalizeText whiskyRawInput := by
  refine ⟨by decide, by decide, by decide⟩

/-- C4 (amended): normalizing WHI5KY 4O o/o produces whisky 4O o/o, which
contains whisky in lowercase as a substring; the 4O o/o part is unchanged,
so neither WHISKY nor 40% occurs. -/
theorem normalizeText_whisky_scenario :
    normalizeText whiskyRawInput = whiskyNormalized ∧
    sWhiskyWord <:+: normalizeText whiskyRawInput := by
  refine ⟨by decide, by decide⟩

/-- C10: the volume-unit rules fire inside ordinary words, case-insensitively
and with lowercase replacement: the purely alphabetic PREMIUM is changed to
PREmlUM by the m-followed-by-one-of-l-i-1 rule, and BOZEMAN to BozEMAN by the
o-or-0-followed-by-z rule. -/
theorem normalizeText_rewrites_inside_words :
    normalizeText premiumInput = premiumOutput ∧
    normalizeText premiumInput ≠ premiumInput ∧
    normalizeText bozemanInput = bozemanOutput := by
  refine ⟨by decide, by decide, by decide⟩

theorem processImage_snd (recognize : ℕ → RecOutcome) :
    (processImage recognize).2 = (processImageGo recognize (List.range 4) none 0).2 := by
  unfold processImage
  rcases h : processImageGo recognize (List.range 4) none 0 with ⟨b, n⟩
  cases b <;> simp

theorem processImageGo_early_exit (recognize : ℕ → RecOutcome) (i : ℕ) (t : Str) (c : ℚ)
    (hrec : recognize i = .ok t c) (hc : 80 < c) (hl : 50 < (normalizeText t).length) :
    ∀ (l₁ l₂ : List ℕ) (best : Option OCRBest) (n : ℕ),
      (processImageGo recognize (l₁ ++ i :: l₂) best n).2 ≤ n + l₁.length + 1 := by
  intro l₁
  induction l₁ with
  | nil =>
    intro l₂ best n
    rw [List.nil_append]
    unfold processImageGo
    rw [hrec]
    dsimp only
    rw [if_pos ⟨hc, hl⟩]
    simp
  | cons j l₁ ih =>
    intro l₂ best n
    rw [List.cons_append]
    unfold processImageGo
    rcases hj : recognize j with ⟨t', c'⟩ | _
    · dsimp only
      split
      · simp only
        omega
      · calc (processImageGo recognize (l₁ ++ i :: l₂) _ (n + 1)).2
            ≤ (n + 1) + l₁.length + 1 := ih l₂ _ (n + 1)
          _ = n + (j :: l₁).length + 1 := by simp; omega
    · calc (processImageGo recognize (l₁ ++ i :: l₂) best (n + 1)).2
          ≤ (n + 1) + l₁.length + 1 := ih l₂ best (n + 1)
        _ = n + (j :: l₁).length + 1 := by simp; omega

/-- C6: once a configuration yields confidence above 80 and normalized text
longer than 50, no later configuration is attempted: the number of
`Tesseract.recognize` invocations is at most `i + 1` when configuration `i`
satisfies the early-exit condition, and exactly 1 when the first one does. -/
theorem processImage_early_exit (recognize : ℕ → RecOutcome) (i : ℕ) (hi : i < 4)
    (t : Str) (c : ℚ) (hrec : recognize i = .ok t c) (hc : 80 < c)
    (hl : 50 < (normalizeText t).length) :
    (processImage recognize).2 ≤ i + 1 ∧ (i = 0 → (processImage recognize).2 = 1) := by
  have hrange : List.range 4 = [0, 1, 2, 3] := by decide
  constructor
  · rw [processImage_snd, hrange]
    interval_cases i
    · exact processImageGo_early_exit recognize 0 t c hrec hc hl [] [1, 2, 3] none 0
    · exact processImageGo_early_exit recognize 1 t c hrec hc hl [0] [2, 3] none 0
    · exact processImageGo_early_exit recognize 2 t c hrec hc hl [0, 1] [3] none 0
    · exact processImageGo_early_exit recognize 3 t c hrec hc hl [0, 1, 2] [] none 0
  · intro hi0
    subst hi0
    rw [processImage_snd, hrange]
    show (processImageGo recognize (0 :: [1, 2, 3]) none 0).2 = 1
    unfold processImageGo
    rw [hrec]
    dsimp only
    rw [if_pos ⟨hc, hl⟩]

/-- Witness for C6: a recognizer whose first configuration returns confidence
90 and a normalization longer than 50 characters is invoked exactly once. -/
theorem processImage_early_exit_witness :
    (processImage recOnce).2 ≤ 0 + 1 ∧ (0 = 0 → (processImage recOnce).2 = 1) :=
  processImage_early_exit recOnce 0 (by decide) longRaw 90 rfl (by decide) (by decide)

theorem processImageGo_fst_some (recognize : ℕ → RecOutcome) (l : List ℕ) (b : OCRBest)
    (n : ℕ) : ∃ b2 n2, processImageGo recognize l (some b) n = (some b2, n2) := by
  induction l generalizing b n with
  | nil => exact ⟨b, n, rfl⟩
  | cons j l ih =>
    unfold processImageGo
    rcases hj : recognize j with ⟨t', c'⟩ | _
    · dsimp only
      split
      · split
        · exact ⟨_, _, rfl⟩
        · exact ⟨_, _, rfl⟩
      · split
        · exact ih _ _
        · exact ih _ _
    · exact ih b (n + 1)

theorem processImageGo_none_iff (recognize : ℕ → RecOutcome) (l : List ℕ)
    (n : ℕ) : (processImageGo recognize l none n).1 = none ↔ ∀ j ∈ l, recognize j = .err := by
  induction l generalizing n with
  | nil => simp [processImageGo]
  | cons j l ih =>
    unfold processImageGo
    rcases hj : recognize j with ⟨t', c'⟩ | _
    · dsimp only
      constructor
      · intro h
        exfalso
        revert h
        split
        · simp
        · obtain ⟨b2, n2, hb⟩ := processImageGo_fst_some recognize l ⟨normalizeText t', c'⟩ (n + 1)
          rw [hb]
          simp
      · intro h
        have := h j (by simp)
        rw [hj] at this
        exact absurd this (by simp)
    · rw [ih (n + 1)]
      constructor
      · intro h k hk
        rcases List.mem_cons.mp hk with hk0 | hk1
        · rw [hk0]
          exact hj
        · exact h k hk1
      · intro h k hk
        exact h k (List.mem_cons_of_mem j hk)

theorem processImageGo_all_err (recognize : ℕ → RecOutcome) (l : List ℕ)
    (best : Option OCRBest) (n : ℕ) (h : ∀ j ∈ l, recognize j = .err) :
    processImageGo recognize l best n = (best, n + l.length) := by
  induction l generalizing n with
  | nil => rfl
  | cons j l ih =>
    unfold processImageGo
    rw [h j (by simp)]
    rw [ih (n + 1) (fun k hk => h k (List.mem_cons_of_mem j hk))]
    simp
    omega

/-- C7: a recognition error in one configuration is caught and the remaining
configurations are still attempted (all four are invoked when all fail), and
`processImage` fails with the error All OCR attempts failed exactly when every
configuration fails; whenever some configuration succeeds, an ok result is
returned, never a partial one. -/
theorem processImage_all_fail (recognize : ℕ → RecOutcome) :
    ((processImage recognize).1 = .error allFailedError ↔ ∀ i < 4, recognize i = .err)
    ∧ ((∀ i < 4, recognize i = .err) → (processImage recognize).2 = 4)
    ∧ (¬ (∀ i < 4, recognize i = .err) → ∃ b, (processImage recognize).1 = .ok b) := by
  have hmem : ∀ j, j ∈ List.range 4 ↔ j < 4 := fun j => List.mem_range
  have key : (processImage recognize).1 = .error allFailedError ↔
      (processImageGo recognize (List.range 4) none 0).1 = none := by
    unfold processImage
    rcases h : processImageGo recognize (List.range 4) none 0 with ⟨b, n⟩
    cases b <;> simp
  refine ⟨?_, ?_, ?_⟩
  · rw [key, processImageGo_none_iff]
    constructor
    · intro h i hi
      exact h i ((hmem i).mpr hi)
    · intro h j hj
      exact h j ((hmem j).mp hj)
  · intro h
    rw [processImage_snd]
    rw [processImageGo_all_err recognize (List.range 4) none 0
      (fun j hj => h j ((hmem j).mp hj))]
    simp
  · intro h
    have h1 : ¬ (processImageGo recognize (List.range 4) none 0).1 = none := by
      rw [processImageGo_none_iff]
      intro hall
      exact h (fun i hi => hall i ((hmem i).mpr hi))
    unfold processImage
    rcases hgo : processImageGo recognize (List.range 4) none 0 with ⟨b, n⟩
    rcases b with _ | b
    · rw [hgo] at h1
      exact absurd rfl h1
    · exact ⟨b, by simp⟩

/-- Witness for C7: the all-failing recognizer produces the
All OCR attempts failed error after exactly 4 attempts. -/
theorem processImage_all_fail_witness :
    (processImage recAllErr).1 = .error allFailedError ∧ (processImage recAllErr).2 = 4 :=
  ⟨(processImage_all_fail recAllErr).1.mpr (fun _ _ => rfl),
   (processImage_all_fail recAllErr).2.1 (fun _ _ => rfl)⟩

theorem takeWhile_replicate_append (c : Char) (k : ℕ) (v : Str) :
    (List.replicate k c ++ v).takeWhile (fun x => decide (x = c)) =
      List.replicate k c ++ v.takeWhile (fun x => decide (x = c)) := by
  induction k with
  | zero => simp
  | succ k ih => simp [List.replicate_succ, List.takeWhile_cons, ih]

theorem dropWhile_replicate_append (c : Char) (k : ℕ) (v : Str) :
    (List.replicate k c ++ v).dropWhile (fun x => decide (x = c)) =
      v.dropWhile (fun x => decide (x = c)) := by
  induction k with
  | zero => simp
  | succ k ih => simp [List.replicate_succ, List.dropWhile_cons, ih]

theorem takeWhile_of_head_ne (c d : Char) (v : Str) (hv : v.head? = some d) (hdc : d ≠ c) :
    v.takeWhile (fun x => decide (x = c)) = [] := by
  rcases v with _ | ⟨e, t⟩
  · rfl
  · simp only [List.head?_cons, Option.some.injEq] at hv
    subst hv
    simp [List.takeWhile_cons, hdc]

theorem dropWhile_of_head_ne (c d : Char) (v : Str) (hv : v.head? = some d) (hdc : d ≠ c) :
    v.dropWhile (fun x => decide (x = c)) = v := by
  rcases v with _ | ⟨e, t⟩
  · rfl
  · simp only [List.head?_cons, Option.some.injEq] at hv
    subst hv
    simp [List.dropWhile_cons, hdc]

theorem emitLen_pos (c : Char) (n : ℕ) (hn : 1 ≤ n) : 1 ≤ emitLen c n := by
  unfold emitLen
  split <;> omega

theorem emitLen_le (c : Char) (n : ℕ) : emitLen c n ≤ n := by
  unfold emitLen
  split
  · rename_i h
    simp only [Bool.and_eq_true, decide_eq_true_eq] at h
    omega
  · exact le_refl n

theorem emitLen_small (c : Char) (n : ℕ) (hlt : isLineTerm c = false) : emitLen c n ≤ 3 ∨ emitLen c n = n := by
  unfold emitLen
  split
  · left
    omega
  · right
    rfl

theorem collapseGo_head (ds : Str) (c : Char) (n : ℕ) (hn : 1 ≤ n) :
    (collapseGo ds c n).head? = some c := by
  induction ds generalizing c n with
  | nil =>
    show (emitRun c n).head? = some c
    unfold emitRun
    rcases Nat.exists_eq_add_of_le (emitLen_pos c n hn) with ⟨k, hk⟩
    rw [Nat.add_comm] at hk
    rw [hk]
    simp [List.replicate_succ]
  | cons d ds ih =>
    unfold collapseGo
    by_cases hdc : d = c
    · rw [if_pos hdc]
      exact ih c (n + 1) (by omega)
    · rw [if_neg hdc]
      rw [List.head?_append]
      unfold emitRun
      rcases Nat.exists_eq_add_of_le (emitLen_pos c n hn) with ⟨k, hk⟩
      rw [Nat.add_comm] at hk
      rw [hk]
      simp [List.replicate_succ]

theorem collapseGo_ne_nil (ds : Str) (c : Char) (n : ℕ) (hn : 1 ≤ n) :
    collapseGo ds c n ≠ [] := by
  intro h
  have := collapseGo_head ds c n hn
  rw [h] at this
  exact absurd this (by simp)

theorem runsOk_collapseGo (ds : Str) (c : Char) (n : ℕ) (hn : 1 ≤ n) :
    runsOk (collapseGo ds c n) = true := by
  induction ds generalizing c n with
  | nil =>
    show runsOk (emitRun c n) = true
    unfold emitRun
    rcases Nat.exists_eq_add_of_le (emitLen_pos c n hn) with ⟨k, hk⟩
    rw [Nat.add_comm] at hk
    have hk3 : isLineTerm c = true ∨ k ≤ 2 := by
      by_cases hlt : isLineTerm c = true
      · exact Or.inl hlt
      · right
        have := emitLen_small c n (by simpa using hlt)
        rcases this with h3 | hid
        · omega
        · unfold emitLen at hid hk
          revert hid hk
          split <;> intro hid hk
          · omega
          · rename_i hcond
            simp only [Bool.and_eq_true, Bool.not_eq_true', decide_eq_true_eq, not_and,
              Bool.not_eq_true] at hcond
            have h4 := hcond (by simpa using hlt)
            omega
    rw [hk]
    rw [List.replicate_succ]
    unfold runsOk
    have ht : (List.replicate k c).takeWhile (fun x => decide (x = c)) = List.replicate k c := by
      have := takeWhile_replicate_append c k []
      simpa using this
    have hd : (List.replicate k c).dropWhile (fun x => decide (x = c)) = [] := by
      have := dropWhile_replicate_append c k []
      simpa using this
    rw [ht, hd]
    simp only [List.length_replicate]
    rcases hk3 with h | h
    · simp [h, runsOk]
    · simp [h, runsOk]
  | cons d ds ih =>
    unfold collapseGo
    by_cases hdc : d = c
    · rw [if_pos hdc]
      exact ih c (n + 1) (by omega)
    · rw [if_neg hdc]
      have hout : (collapseGo ds d 1).head? = some d := collapseGo_head ds d 1 (le_refl 1)
      unfold emitRun
      rcases Nat.exists_eq_add_of_le (emitLen_pos c n hn) with ⟨k, hk⟩
      rw [Nat.add_comm] at hk
      have hk3 : isLineTerm c = true ∨ k ≤ 2 := by
        by_cases hlt : isLineTerm c = true
        · exact Or.inl hlt
        · right
          unfold emitLen at hk
          revert hk
          split <;> intro hk
          · omega
          · rename_i hcond
            simp only [Bool.and_eq_true, Bool.not_eq_true', decide_eq_true_eq, not_and,
              Bool.not_eq_true] at hcond
            have h4 := hcond (by simpa using hlt)
            omega
      rw [hk, List.replicate_succ, List.cons_append]
      unfold runsOk
      rw [takeWhile_replicate_append c k _, dropWhile_replicate_append c k _]
      rw [takeWhile_of_head_ne c d _ hout hdc, dropWhile_of_head_ne c d _ hout hdc]
      rw [ih d 1 (le_refl 1)]
      simp only [List.append_nil, List.length_replicate, Bool.and_true]
      rcases hk3 with h | h
      · simp [h]
      · simp [h]

theorem runsOk_collapse (v : Str) : runsOk (collapseRepeats v) = true := by
  rcases v with _ | ⟨c, cs⟩
  · show runsOk [] = true
    simp [runsOk]
  · exact runsOk_collapseGo cs c 1 (le_refl 1)

theorem emitRun_of_ok (c : Char) (n : ℕ)
    (h : isLineTerm c = true ∨ n ≤ 3) : emitRun c n = List.replicate n c := by
  unfold emitRun emitLen
  rcases h with h | h
  · rw [if_neg]
    simp [h]
  · rw [if_neg]
    simp only [Bool.and_eq_true, Bool.not_eq_true', decide_eq_true_eq, not_and]
    intro _
    omega

theorem collapseGo_ident (ds : Str) (c : Char) (n : ℕ)
    (hrun : isLineTerm c = true ∨ n + (ds.takeWhile (fun x => decide (x = c))).length ≤ 3)
    (hrest : collapseRepeats (ds.dropWhile (fun x => decide (x = c))) =
      ds.dropWhile (fun x => decide (x = c))) :
    collapseGo ds c n = List.replicate n c ++ ds := by
  induction ds generalizing c n with
  | nil =>
    show emitRun c n = List.replicate n c ++ []
    rw [List.append_nil]
    apply emitRun_of_ok
    simpa using hrun
  | cons d ds ih =>
    unfold collapseGo
    by_cases hdc : d = c
    · rw [if_pos hdc]
      subst hdc
      have ht : (d :: ds).takeWhile (fun x => decide (x = d)) =
          d :: ds.takeWhile (fun x => decide (x = d)) := by
        simp [List.takeWhile_cons]
      have hd : (d :: ds).dropWhile (fun x => decide (x = d)) =
          ds.dropWhile (fun x => decide (x = d)) := by
        simp [List.dropWhile_cons]
      rw [ht] at hrun
      rw [hd] at hrest
      have hrun2 : isLineTerm d = true ∨
          (n + 1) + (ds.takeWhile (fun x => decide (x = d))).length ≤ 3 := by
        rcases hrun with h | h
        · exact Or.inl h
        · right
          simp only [List.length_cons] at h
          omega
      have := ih d (n + 1) hrun2 hrest
      rw [this]
      rw [List.replicate_succ']
      simp
    · rw [if_neg hdc]
      have ht : (d :: ds).takeWhile (fun x => decide (x = c)) = [] := by
        simp [List.takeWhile_cons, hdc]
      have hd : (d :: ds).dropWhile (fun x => decide (x = c)) = d :: ds := by
        simp [List.dropWhile_cons, hdc]
      rw [ht] at hrun
      rw [hd] at hrest
      rw [emitRun_of_ok c n (by simpa using hrun)]
      have hgo : collapseGo ds d 1 = d :: ds := by
        have h1 : collapseRepeats (d :: ds) = collapseGo ds d 1 := rfl
        rw [← h1, hrest]
      rw [hgo]

theorem collapse_ident (v : Str) (h : runsOk v = true) : collapseRepeats v = v := by
  have H : ∀ m v, v.length ≤ m → runsOk v = true → collapseRepeats v = v := by
    intro m
    induction m with
    | zero =>
      intro v hv _
      have hv0 : v = [] := List.length_eq_zero.mp (by omega)
      subst hv0
      rfl
    | succ m ihm =>
      intro v hv hok
      rcases v with _ | ⟨c, cs⟩
      · rfl
      · show collapseGo cs c 1 = c :: cs
        rw [runsOk] at hok
        simp only [Bool.and_eq_true, Bool.or_eq_true, decide_eq_true_eq] at hok
        have hdrop : (cs.dropWhile (fun x => decide (x = c))).length ≤ m := by
          have hsub : (cs.dropWhile (fun x => decide (x = c))).Sublist cs :=
            List.dropWhile_sublist _
          have := List.Sublist.length_le hsub
          simp only [List.length_cons] at hv
          omega
        have hrest := ihm _ hdrop hok.2
        have hrun : isLineTerm c = true ∨
            1 + (cs.takeWhile (fun x => decide (x = c))).length ≤ 3 := by
          rcases hok.1 with h | h
          · exact Or.inl h
          · right
            omega
        have := collapseGo_ident cs c 1 hrun hrest
        rw [this]
        simp
  exact H v.length v (le_refl _) h

/-- The repeated-character collapse is idempotent on every string. -/
theorem collapse_idem (v : Str) :
    collapseRepeats (collapseRepeats v) = collapseRepeats v :=
  collapse_ident _ (runsOk_collapse v)

theorem wsReplaceGo_ident (l : Str) (hsp : wsCharsSpace l) (hadj : noAdjWs l) :
    wsReplaceGo l false = l ∧ (headNotWs l → wsReplaceGo l true = l) := by
  induction l with
  | nil => exact ⟨rfl, fun _ => rfl⟩
  | cons c cs ih =>
    have hsp2 : wsCharsSpace cs := fun x hx hw => hsp x (List.mem_cons_of_mem c hx) hw
    have hadj2 : noAdjWs cs := hadj.tail
    obtain ⟨ih0, ih1⟩ := ih hsp2 hadj2
    by_cases hw : c.isWhitespace = true
    · have hc : c = ' ' := hsp c (List.mem_cons_self c cs) hw
      have hnext : headNotWs cs := by
        intro b hb
        have hR := (List.chain'_cons'.mp hadj).1 b hb
        by_contra hb2
        simp only [Bool.not_eq_false] at hb2
        exact hR ⟨hw, hb2⟩
      constructor
      · show wsReplaceGo (c :: cs) false = c :: cs
        unfold wsReplaceGo
        rw [if_pos hw]
        simp only [Bool.false_eq_true, if_false]
        rw [ih1 hnext, hc]
      · intro hhead
        have := hhead c (by simp)
        rw [this] at hw
        exact absurd hw (by simp)
    · have hwb : c.isWhitespace = false := by simpa using hw
      constructor
      · show wsReplaceGo (c :: cs) false = c :: cs
        unfold wsReplaceGo
        rw [if_neg hw, ih0]
      · intro _
        show wsReplaceGo (c :: cs) true = c :: cs
        unfold wsReplaceGo
        rw [if_neg hw, ih0]

theorem dropWhile_ws_ident (l : Str) (h : headNotWs l) :
    l.dropWhile (·.isWhitespace) = l := by
  rcases l with _ | ⟨c, cs⟩
  · rfl
  · have := h c (by simp)
    simp [List.dropWhile_cons, this]

theorem wsStep_ident (l : Str) (h : wsClean l) : wsStep l = l := by
  obtain ⟨hsp, hadj, hh, hl⟩ := h
  unfold wsStep wsReplace jsTrim
  rw [(wsReplaceGo_ident l hsp hadj).1]
  rw [dropWhile_ws_ident l hh]
  rw [dropWhile_ws_ident l.reverse hl]
  exact List.reverse_reverse l

theorem wsReplaceGo_head_true (l : Str) : headNotWs (wsReplaceGo l true) := by
  induction l with
  | nil => intro c hc; simp [wsReplaceGo] at hc
  | cons c cs ih =>
    by_cases hw : c.isWhitespace = true
    · show headNotWs (wsReplaceGo (c :: cs) true)
      unfold wsReplaceGo
      rw [if_pos hw]
      simpa using ih
    · show headNotWs (wsReplaceGo (c :: cs) true)
      unfold wsReplaceGo
      rw [if_neg hw]
      intro x hx
      simp only [List.head?_cons, Option.mem_def, Option.some.injEq] at hx
      subst hx
      simpa using hw

theorem wsCharsSpace_wsReplaceGo (l : Str) : ∀ b, wsCharsSpace (wsReplaceGo l b) := by
  induction l with
  | nil => intro b c hc; simp [wsReplaceGo] at hc
  | cons c cs ih =>
    intro b x hx hxw
    unfold wsReplaceGo at hx
    by_cases hw : c.isWhitespace = true
    · rw [if_pos hw] at hx
      rcases b with _ | _
      · simp only [Bool.false_eq_true, if_false, List.mem_cons] at hx
        rcases hx with hx | hx
        · exact hx
        · exact ih true x hx hxw
      · simp only [if_true] at hx
        exact ih true x hx hxw
    · rw [if_neg hw] at hx
      rcases List.mem_cons.mp hx with hx | hx
      · subst hx
        exact absurd hxw (by simpa using hw)
      · exact ih false x hx hxw

theorem noAdjWs_wsReplaceGo (l : Str) : ∀ b, noAdjWs (wsReplaceGo l b) := by
  induction l with
  | nil => intro b; simp [wsReplaceGo, noAdjWs]
  | cons c cs ih =>
    intro b
    unfold wsReplaceGo
    by_cases hw : c.isWhitespace = true
    · rw [if_pos hw]
      rcases b with _ | _
      · simp only [Bool.false_eq_true, if_false]
        apply List.chain'_cons'.mpr
        refine ⟨?_, ih true⟩
        intro y hy
        have := wsReplaceGo_head_true cs y hy
        intro hand
        rw [this] at hand
        exact absurd hand.2 (by simp)
      · simp only [if_true]
        exact ih true
    · rw [if_neg hw]
      apply List.chain'_cons'.mpr
      refine ⟨?_, ih false⟩
      intro y hy
      intro hand
      rw [hand.1] at hw
      exact absurd hw (by simp)

theorem headNotWs_dropWhile (l : Str) : headNotWs (l.dropWhile (·.isWhitespace)) := by
  induction l with
  | nil => intro c hc; simp at hc
  | cons c cs ih =>
    by_cases hw : c.isWhitespace = true
    · rw [List.dropWhile_cons_of_pos (by simpa using hw)]
      exact ih
    · rw [List.dropWhile_cons_of_neg (by simpa using hw)]
      intro x hx
      simp only [List.head?_cons, Option.mem_def, Option.some.injEq] at hx
      subst hx
      simpa using hw

theorem wsCharsSpace_sublist (l l2 : Str) (h : l2.Sublist l) (hsp : wsCharsSpace l) :
    wsCharsSpace l2 := fun x hx hw => hsp x (h.mem hx) hw

theorem noAdjWs_dropWhile (l : Str) (p : Char → Bool) (h : noAdjWs l) :
    noAdjWs (l.dropWhile p) := by
  have hsplit : l.takeWhile p ++ l.dropWhile p = l := List.takeWhile_append_dropWhile p l
  unfold noAdjWs at h ⊢
  rw [← hsplit] at h
  exact (List.chain'_append.mp h).2.1

theorem noAdjWs_reverse (l : Str) (h : noAdjWs l) : noAdjWs l.reverse := by
  unfold noAdjWs at h ⊢
  rw [List.chain'_reverse]
  apply List.Chain'.imp ?_ h
  intro a b hab hand
  exact hab ⟨hand.2, hand.1⟩

theorem wsClean_wsStep (u : Str) : wsClean (wsStep u) := by
  unfold wsStep wsReplace jsTrim
  set w0 := wsReplaceGo u false with hw0
  have hsp0 : wsCharsSpace w0 := wsCharsSpace_wsReplaceGo u false
  have hadj0 : noAdjWs w0 := noAdjWs_wsReplaceGo u false
  set w1 := w0.dropWhile (·.isWhitespace) with hw1
  have hsp1 : wsCharsSpace w1 := wsCharsSpace_sublist w0 w1 (List.dropWhile_sublist _) hsp0
  have hadj1 : noAdjWs w1 := noAdjWs_dropWhile w0 _ hadj0
  have hh1 : headNotWs w1 := headNotWs_dropWhile w0
  set w2 := w1.reverse.dropWhile (·.isWhitespace) with hw2
  have hsp2 : wsCharsSpace w2 := by
    apply wsCharsSpace_sublist w1.reverse w2 (List.dropWhile_sublist _)
    intro x hx hw
    exact hsp1 x (List.mem_reverse.mp hx) hw
  have hadj2 : noAdjWs w2 := noAdjWs_dropWhile w1.reverse _ (noAdjWs_reverse w1 hadj1)
  have hh2 : headNotWs w2 := headNotWs_dropWhile w1.reverse
  refine ⟨?_, ?_, ?_, ?_⟩
  · intro x hx hw
    exact hsp2 x (List.mem_reverse.mp hx) hw
  · exact noAdjWs_reverse w2 hadj2
  · intro x hx
    rw [List.head?_reverse] at hx
    have hne : w2 ≠ [] := by
      intro he
      rw [he] at hx
      simp at hx
    have hsuf : w2 <:+ w1.reverse := List.dropWhile_suffix _
    obtain ⟨t, ht⟩ := hsuf
    have heq : w1.reverse.getLast? = w2.getLast? := by
      rw [← ht]
      exact List.getLast?_append_of_ne_nil t hne
    rw [← heq, List.getLast?_reverse] at hx
    exact hh1 x hx
  · rw [List.reverse_reverse]
    exact hh2

theorem chain'_replicate (R : Char → Char → Prop) (c : Char) (e : ℕ)
    (h : 2 ≤ e → R c c) : List.Chain' R (List.replicate e c) := by
  induction e with
  | zero => simp
  | succ e ih =>
    rcases e with _ | e
    · simp
    · rw [List.replicate_succ]
      apply List.chain'_cons'.mpr
      constructor
      · intro y hy
        rw [List.replicate_succ] at hy
        simp only [List.head?_cons, Option.mem_def, Option.some.injEq] at hy
        subst hy
        exact h (by omega)
      · exact ih (fun _ => h (by omega))

theorem getLast?_replicate_pos (c : Char) (e : ℕ) (he : 1 ≤ e) :
    (List.replicate e c).getLast? = some c := by
  induction e with
  | zero => omega
  | succ e ih =>
    rcases e with _ | e
    · simp
    · rw [List.replicate_succ, List.replicate_succ, List.getLast?_cons_cons,
        ← List.replicate_succ]
      exact ih (by omega)

theorem collapseGo_mem (ds : Str) (c : Char) (n : ℕ) (x : Char)
    (hx : x ∈ collapseGo ds c n) : x = c ∨ x ∈ ds := by
  induction ds generalizing c n with
  | nil =>
    left
    have : x ∈ emitRun c n := hx
    unfold emitRun at this
    exact List.eq_of_mem_replicate this
  | cons d ds ih =>
    unfold collapseGo at hx
    by_cases hdc : d = c
    · rw [if_pos hdc] at hx
      rcases ih c (n + 1) hx with h | h
      · exact Or.inl h
      · exact Or.inr (List.mem_cons_of_mem d h)
    · rw [if_neg hdc] at hx
      rcases List.mem_append.mp hx with h | h
      · left
        unfold emitRun at h
        exact List.eq_of_mem_replicate h
      · rcases ih d 1 h with h2 | h2
        · right
          rw [h2]
          simp
        · exact Or.inr (List.mem_cons_of_mem d h2)

theorem collapseGo_chain (R : Char → Char → Prop) (ds : Str) (c : Char) (n : ℕ)
    (hn : 1 ≤ n) (hch : List.Chain' R (c :: ds)) (hcc : 2 ≤ n → R c c) :
    List.Chain' R (collapseGo ds c n) := by
  induction ds generalizing c n with
  | nil =>
    show List.Chain' R (emitRun c n)
    unfold emitRun
    apply chain'_replicate
    intro h2
    apply hcc
    unfold emitLen at h2
    revert h2
    split
    · rename_i hcond
      simp only [Bool.and_eq_true, Bool.not_eq_true', decide_eq_true_eq] at hcond
      intro _
      omega
    · intro h2
      omega
  | cons d ds ih =>
    unfold collapseGo
    by_cases hdc : d = c
    · rw [if_pos hdc]
      subst hdc
      have h1 := List.chain'_cons.mp hch
      exact ih d (n + 1) (by omega) h1.2 (fun _ => h1.1)
    · rw [if_neg hdc]
      apply List.chain'_append.mpr
      refine ⟨?_, ?_, ?_⟩
      · unfold emitRun
        apply chain'_replicate
        intro h2
        apply hcc
        unfold emitLen at h2
        revert h2
        split
        · rename_i hcond
          simp only [Bool.and_eq_true, Bool.not_eq_true', decide_eq_true_eq] at hcond
          intro _
          omega
        · intro h2
          omega
      · exact ih d 1 (le_refl 1) (List.chain'_cons.mp hch).2 (by omega)
      · intro x hx y hy
        unfold emitRun at hx
        rw [getLast?_replicate_pos c _ (emitLen_pos c n hn)] at hx
        simp only [Option.mem_def, Option.some.injEq] at hx
        subst hx
        rw [collapseGo_head ds d 1 (le_refl 1)] at hy
        simp only [Option.mem_def, Option.some.injEq] at hy
        subst hy
        exact (List.chain'_cons.mp hch).1

theorem getLast?_cons_getD (c : Char) (ds : Str) :
    (c :: ds).getLast? = some (ds.getLast?.getD c) := by
  induction ds generalizing c with
  | nil => simp
  | cons d ds ih =>
    rw [List.getLast?_cons_cons, ih d]
    simp

theorem collapseGo_last (ds : Str) (c : Char) (n : ℕ) (hn : 1 ≤ n) :
    (collapseGo ds c n).getLast? = some (ds.getLast?.getD c) := by
  induction ds generalizing c n with
  | nil =>
    show (emitRun c n).getLast? = some c
    unfold emitRun
    exact getLast?_replicate_pos c _ (emitLen_pos c n hn)
  | cons d ds ih =>
    unfold collapseGo
    by_cases hdc : d = c
    · rw [if_pos hdc]
      subst hdc
      rw [ih d (n + 1) (by omega)]
      rw [getLast?_cons_getD]
      simp
    · rw [if_neg hdc]
      rw [List.getLast?_append_of_ne_nil _ (collapseGo_ne_nil ds d 1 (le_refl 1))]
      rw [ih d 1 (le_refl 1)]
      rw [getLast?_cons_getD]
      simp

theorem collapse_head (v : Str) : (collapseRepeats v).head? = v.head? := by
  rcases v with _ | ⟨c, cs⟩
  · rfl
  · rw [List.head?_cons]
    exact collapseGo_head cs c 1 (le_refl 1)

theorem collapse_last (v : Str) : (collapseRepeats v).getLast? = v.getLast? := by
  rcases v with _ | ⟨c, cs⟩
  · rfl
  · rw [getLast?_cons_getD]
    exact collapseGo_last cs c 1 (le_refl 1)

theorem wsClean_collapse (v : Str) (h : wsClean v) : wsClean (collapseRepeats v) := by
  obtain ⟨hsp, hadj, hh, hl⟩ := h
  refine ⟨?_, ?_, ?_, ?_⟩
  · intro x hx hw
    rcases v with _ | ⟨c, cs⟩
    · simp [collapseRepeats] at hx
    · rcases collapseGo_mem cs c 1 x hx with h2 | h2
      · subst h2
        exact hsp x (by simp) hw
      · exact hsp x (List.mem_cons_of_mem c h2) hw
  · rcases v with _ | ⟨c, cs⟩
    · simp [collapseRepeats, noAdjWs]
    · exact collapseGo_chain _ cs c 1 (le_refl 1) hadj (by omega)
  · intro x hx
    rw [collapse_head] at hx
    exact hh x hx
  · intro x hx
    rw [List.head?_reverse, collapse_last, ← List.head?_reverse] at hx
    exact hl x hx

/-- C8: the whitespace-collapse step (runs of whitespace to one space, ends
trimmed) and the repeated-character-collapse step leave every output of
`normalizeText` unchanged: the normalizer is idempotent in its two final
rules. -/
theorem normalizeText_ws_repeat_idempotent (x : Str) :
    wsStep (normalizeText x) = normalizeText x ∧
    collapseRepeats (normalizeText x) = normalizeText x := by
  unfold normalizeText
  split
  · exact ⟨rfl, rfl⟩
  · constructor
    · exact wsStep_ident _ (wsClean_collapse _ (wsClean_wsStep _))
    · exact collapse_idem _
